import Mathlib

/-!
Verification development for the TopCV job-crawling / RAG chat repository.

The repository consists of a PostgreSQL schema (`db.sql`, with a pgvector
variant defining `rag_job_documents`) and browser-side JavaScript
(`api_client.js`, `layout.js` containing the chat widget, `auth.js`,
`profile.js`).  The retrieval pipeline itself (chunker, indexer, retriever,
context manager) is described by the design document; where it is not present
in the sources it is modelled from the design document, and each such
definition says so in its doc comment.

Part 1: JavaScript value model and the `apiClient.request` function of
`web/static/js/api_client.js`.
-/

/-- JavaScript values as observed by the client code: `null`, booleans,
numbers (modelled as integers; the client code never does arithmetic on
response bodies), strings, arrays and plain objects.  `undefined` is
represented externally by `Option` where it matters (property access). -/
inductive JsVal where
  | jnull : JsVal
  | jbool (b : Bool) : JsVal
  | jnum (n : Int) : JsVal
  | jstr (s : String) : JsVal
  | jarr (elems : List JsVal) : JsVal
  | jobj (fields : List (String × JsVal)) : JsVal
  deriving Repr

namespace JsVal

/-- JavaScript truthiness: `null`, `false`, `0` and `""` are falsy; every
array and object (even empty) is truthy. -/
def truthy : JsVal → Bool
  | .jnull => false
  | .jbool b => b
  | .jnum n => n != 0
  | .jstr s => s != ""
  | .jarr _ => true
  | .jobj _ => true

/-- Property access `v.name`: a lookup on objects, `none` (i.e. `undefined`)
on every other value and on absent keys. -/
def getProp : JsVal → String → Option JsVal
  | .jobj fields, name => (fields.find? (fun f => f.fst == name)).map (·.snd)
  | _, _ => none

mutual

/-- JavaScript `String(v)` coercion as used by the `Error` constructor:
strings pass through, `null` prints `"null"`, numbers print in decimal,
arrays join their elements with commas, plain objects print
`"[object Object]"`. -/
def jsToString : JsVal → String
  | .jnull => "null"
  | .jbool b => if b then "true" else "false"
  | .jnum n => toString n
  | .jstr s => s
  | .jarr elems => String.intercalate "," (jsToStringList elems)
  | .jobj _ => "[object Object]"

/-- Array elements under `Array.prototype.join`: `null` renders as the
empty string rather than `"null"`. -/
def jsToStringList : List JsVal → List String
  | [] => []
  | .jnull :: rest => "" :: jsToStringList rest
  | v :: rest => jsToString v :: jsToStringList rest

end

/-- Names of the fields of an object literal, in source order. -/
def fieldNames : JsVal → List String
  | .jobj fields => fields.map (·.fst)
  | _ => []

end JsVal

/-- An HTTP response as observed by `request` in `api_client.js`: the `ok`
flag, the numeric status, and the body after `res.json()` — `none` when the
body is not valid JSON (the `catch` branch leaves `data = null`). -/
structure HttpResponse where
  ok : Bool
  status : Nat
  body : Option JsVal
  deriving Repr

/-- The `Error` object thrown by `request` on a non-ok response:
`message` from the `Error` constructor, plus the `status` and `data`
fields the code attaches. -/
structure ApiError where
  message : String
  status : Nat
  data : JsVal
  deriving Repr

/-- The expression `(data && data.detail)` of `api_client.js` line 20:
if `data` is falsy the result is `data` itself, otherwise it is the
property `data.detail` (which may be `undefined`, modelled as `none`). -/
def andDetail (data : JsVal) : Option JsVal :=
  if data.truthy then data.getProp "detail" else some data

/-- The `Error` message of `api_client.js` line 20,
`(data && data.detail) || "Request failed"`: the left operand when it is
truthy, else the fallback string. -/
def requestErrMessage (data : JsVal) : String :=
  match andDetail data with
  | some v => if v.truthy then v.jsToString else "Request failed"
  | none => "Request failed"

/-- Shallow embedding of `request` from `web/static/js/api_client.js`
lines 3–26, starting after `fetch` returns: parse the body (`data` is the
parsed JSON or `null`), throw an `ApiError` when `res.ok` is false, and
resolve with `data` otherwise. -/
def request (res : HttpResponse) : Except ApiError JsVal :=
  let data := res.body.getD .jnull
  if res.ok then
    .ok data
  else
    .error { message := requestErrMessage data, status := res.status, data := data }

/-- Amended reading of the error-message rule actually implemented: the
message is the (stringified) `detail` field when it is present and truthy,
and `"Request failed"` in every other case.  Note a falsy parsed body can
never be an object, so it never has a `detail` property. -/
def specErrMessage (data : JsVal) : String :=
  match data.getProp "detail" with
  | some d => if d.truthy then d.jsToString else "Request failed"
  | none => "Request failed"

/-- Message rule as worded by the original claim: the body's `detail` field
whenever it is present, `"Request failed"` otherwise (no truthiness
condition). -/
def claimedErrMessage (data : JsVal) : String :=
  match data.getProp "detail" with
  | some d => d.jsToString
  | none => "Request failed"

theorem truthy_false_getProp_eq_none (v : JsVal) (h : v.truthy = false) (name : String) :
    v.getProp name = none := by
  cases v <;> simp_all [JsVal.truthy, JsVal.getProp]

theorem requestErrMessage_eq_spec (data : JsVal) :
    requestErrMessage data = specErrMessage data := by
  unfold requestErrMessage specErrMessage andDetail
  by_cases h : data.truthy = true
  · simp [h]
  · have h' : data.truthy = false := by simpa using h
    rw [truthy_false_getProp_eq_none data h']
    simp [h']

/-- C10 (counterexample): at the concrete response `status 500`, body
`{"detail": ""}`, the code produces the message `"Request failed"` even
though the `detail` field is present (with value `""`), contradicting the
claim that the message is the body's `detail` field whenever present. -/
theorem apiClient_request_message_counterexample :
    request ⟨false, 500, some (.jobj [("detail", .jstr "")])⟩ =
      Except.error { message := "Request failed", status := 500,
                     data := .jobj [("detail", .jstr "")] } ∧
    claimedErrMessage (.jobj [("detail", .jstr "")]) = "" ∧
    "Request failed" ≠ "" :=
  ⟨rfl, rfl, by decide⟩

/-- C10 (amended): `request` resolves with the parsed body (or `null` when
the body is not valid JSON) exactly when the response is ok; otherwise it
rejects with an error carrying the HTTP status, the parsed body (or `null`),
and a message equal to the stringified `detail` field when that field is
present and truthy, `"Request failed"` otherwise. -/
theorem apiClient_request_contract (res : HttpResponse) :
    ((∃ v, request res = Except.ok v) ↔ res.ok = true) ∧
    (res.ok = true → request res = Except.ok (res.body.getD JsVal.jnull)) ∧
    (∀ e, request res = Except.error e →
      e.status = res.status ∧
      e.data = res.body.getD JsVal.jnull ∧
      e.message = specErrMessage (res.body.getD JsVal.jnull)) := by
  unfold request
  by_cases h : res.ok = true
  · simp [h]
  · have h' : res.ok = false := by simpa using h
    simp only [h', Bool.false_eq_true, if_false]
    refine ⟨by simp, by simp, ?_⟩
    intro e he
    have : e = { message := requestErrMessage (res.body.getD JsVal.jnull),
                 status := res.status, data := res.body.getD JsVal.jnull } := by
      injection he with h1
      exact h1.symm
    subst this
    exact ⟨rfl, rfl, requestErrMessage_eq_spec _⟩

/-- C10 (witness): the contract evaluated at a successful response and at a
404 response whose body carries a non-empty `detail`. -/
theorem apiClient_request_contract_witness :
    request ⟨true, 200, some (.jstr "done")⟩ = Except.ok (.jstr "done") ∧
    "missing" = specErrMessage (.jobj [("detail", .jstr "missing")]) :=
  ⟨(apiClient_request_contract ⟨true, 200, some (.jstr "done")⟩).2.1 rfl,
   ((apiClient_request_contract ⟨false, 404, some (.jobj [("detail", .jstr "missing")])⟩).2.2
      ⟨"missing", 404, .jobj [("detail", .jstr "missing")]⟩ rfl).2.2⟩

/-!
Part 2: the chat widget of `web/static/js/layout.js` (the `chat_widget`
IIFE): sessionStorage-backed history, the form submit handler that posts to
`/api/chat`, and the response handlers.
-/

/-- A chat message as the widget stores it: `{role, content}` objects. -/
structure ChatMsg where
  role : String
  content : String
  deriving Repr, DecidableEq

/-- Key under which the widget keeps its history in `sessionStorage`. -/
def CHAT_STORAGE_KEY : String := "jf_chat_history_v1"

/-- Character-level embedding of JavaScript `String.prototype.trim`:
drop leading and trailing whitespace. -/
def jsTrim (s : String) : String :=
  ⟨((s.data.dropWhile Char.isWhitespace).reverse.dropWhile Char.isWhitespace).reverse⟩

/-- The widget's `loadHistoryFromStorage`: `none` models an absent key, an
unparseable value, or a non-array value, all of which the function maps
to `[]`. -/
def loadHistoryFromStorage (stored : Option (List ChatMsg)) : List ChatMsg :=
  stored.getD []

/-- Client-side state of the widget: the in-memory `chatHistory` array and
the `sessionStorage` slot under `CHAT_STORAGE_KEY`. -/
structure WidgetState where
  chatHistory : List ChatMsg
  storage : Option (List ChatMsg)
  deriving Repr, DecidableEq

/-- Widget initialisation (`chatHistory = loadHistoryFromStorage()`). -/
def initWidget (stored : Option (List ChatMsg)) : WidgetState :=
  { chatHistory := loadHistoryFromStorage stored, storage := stored }

/-- The JSON body the submit handler posts to `/api/chat`
(layout.js lines 348–352): `message`, `history`, `current_job_id`. -/
structure ChatRequestBody where
  message : String
  history : List ChatMsg
  current_job_id : Option Int
  deriving Repr, DecidableEq

/-- The form submit handler (layout.js lines 320–352) up to the `fetch`
call: trim the input, bail out when empty, capture the current history as
`historyToSend`, append the user message locally, persist to storage, and
post `{message, history, current_job_id}`.  Returns the posted body and
the widget state after the optimistic local append. -/
def submitChat (st : WidgetState) (inputValue : String) (currentJobId : Option Int) :
    Option (ChatRequestBody × WidgetState) :=
  let text := jsTrim inputValue
  if text = "" then none
  else
    let historyToSend := st.chatHistory
    let newHistory := st.chatHistory ++ [⟨"user", text⟩]
    some ({ message := text, history := historyToSend, current_job_id := currentJobId },
          { chatHistory := newHistory, storage := some newHistory })

/-- JSON encoding of one history entry, as `JSON.stringify` renders it. -/
def chatMsgToJson (m : ChatMsg) : JsVal :=
  .jobj [("role", .jstr m.role), ("content", .jstr m.content)]

/-- JSON encoding of the posted body, as `JSON.stringify` renders the
object literal of layout.js lines 348–352. -/
def chatRequestJson (b : ChatRequestBody) : JsVal :=
  .jobj [("message", .jstr b.message),
         ("history", .jarr (b.history.map chatMsgToJson)),
         ("current_job_id",
           match b.current_job_id with
           | some j => .jnum j
           | none => .jnull)]

/-- The parsed success-response fields the handler reads
(layout.js lines 360–372): `data.answer` and `data.history`;
`history` is `some _` exactly when `Array.isArray(data.history)`. -/
structure ChatResponseData where
  answer : Option String
  history : Option (List ChatMsg)
  deriving Repr, DecidableEq

/-- The handler's `data.answer || "(Không có câu trả lời)"`. -/
def chatAnswerOf (d : ChatResponseData) : String :=
  match d.answer with
  | some s => if s = "" then "(Không có câu trả lời)" else s
  | none => "(Không có câu trả lời)"

/-- Success branch of the submit handler (layout.js lines 360–372): replace
the history with the server's array when present, else append one assistant
message; in both cases persist the result to storage. -/
def handleChatResponse (d : ChatResponseData) (st : WidgetState) : WidgetState :=
  match d.history with
  | some nh => { chatHistory := nh, storage := some nh }
  | none =>
    let nh := st.chatHistory ++ [⟨"assistant", chatAnswerOf d⟩]
    { chatHistory := nh, storage := some nh }

/-- The fallback assistant message of the `catch` branch. -/
def chatErrorFallback : ChatMsg :=
  ⟨"assistant", "Xin lỗi, chatbot đang gặp sự cố. Bạn thử lại sau nhé."⟩

/-- Error branch of the submit handler (layout.js lines 377–385). -/
def handleChatError (st : WidgetState) : WidgetState :=
  let nh := st.chatHistory ++ [chatErrorFallback]
  { chatHistory := nh, storage := some nh }

/-- C7 (counterexample): at the concrete submission of `"hi"` against an
empty widget, the body posted to `/api/chat` has fields exactly
`message`, `history`, `current_job_id` — a mandatory `history` field and
no `sessionToken` — contradicting the claimed operation shape
`(sessionToken?, message, currentJobId?)`. -/
theorem chat_api_surface_counterexample :
    submitChat (initWidget none) "hi" none =
      some ({ message := "hi", history := [], current_job_id := none },
            { chatHistory := [⟨"user", "hi"⟩], storage := some [⟨"user", "hi"⟩] }) ∧
    (chatRequestJson { message := "hi", history := [], current_job_id := none }).fieldNames =
      ["message", "history", "current_job_id"] ∧
    (chatRequestJson { message := "hi", history := [], current_job_id := none }).getProp
      "sessionToken" = none ∧
    (chatRequestJson { message := "hi", history := [], current_job_id := none }).getProp
      "history" = some (.jarr []) := by
  refine ⟨by decide, rfl, rfl, rfl⟩

/-- C7 (amended): the chat client consumes one operation — POST `/api/chat`
with body exactly `(message, history, current_job_id)` and no session
token, where `message` is the trimmed input, `history` is the client's
current history; a whitespace-only input is not submitted at all; the
response is consumed through its `answer` and `history` fields, a non-array
`history` falling back to appending the answer as one assistant message;
a failed request appends a fallback assistant message instead. -/
theorem chat_api_surface_amended (st : WidgetState) (input : String) (jid : Option Int) :
    (jsTrim input = "" → submitChat st input jid = none) ∧
    (∀ b st', submitChat st input jid = some (b, st') →
      (chatRequestJson b).fieldNames = ["message", "history", "current_job_id"] ∧
      (chatRequestJson b).getProp "sessionToken" = none ∧
      b.message = jsTrim input ∧
      b.history = st.chatHistory ∧
      st'.chatHistory = st.chatHistory ++ [⟨"user", jsTrim input⟩] ∧
      st'.storage = some st'.chatHistory) ∧
    (∀ d st2, (handleChatResponse d st2).chatHistory =
        d.history.getD (st2.chatHistory ++ [⟨"assistant", chatAnswerOf d⟩])) ∧
    (∀ st2, (handleChatError st2).chatHistory = st2.chatHistory ++ [chatErrorFallback]) := by
  refine ⟨?_, ?_, ?_, fun st2 => rfl⟩
  · intro h
    simp [submitChat, h]
  · intro b st' hsub
    unfold submitChat at hsub
    by_cases h : jsTrim input = ""
    · simp [h] at hsub
    · simp only [h, if_false] at hsub
      injection hsub with h1
      injection h1 with hb hst
      subst hb; subst hst
      exact ⟨rfl, rfl, rfl, rfl, rfl, rfl⟩
  · intro d st2
    cases hd : d.history <;> simp [handleChatResponse, hd]

/-- C7 (witness): the amended contract evaluated at the concrete submission
of `" hi "` (trimming to `"hi"`) against an empty widget. -/
theorem chat_api_surface_amended_witness :
    (chatRequestJson { message := "hi", history := [], current_job_id := none }).fieldNames =
      ["message", "history", "current_job_id"] ∧
    ({ message := "hi", history := [], current_job_id := none } : ChatRequestBody).history =
      (initWidget none).chatHistory :=
  let h := (chat_api_surface_amended (initWidget none) " hi " none).2.1
    { message := "hi", history := [], current_job_id := none }
    { chatHistory := [⟨"user", "hi"⟩], storage := some [⟨"user", "hi"⟩] }
    (by decide)
  ⟨h.1, h.2.2.2.1⟩

/-- C9 (counterexample): the history posted to the server is read entirely
from client-side `sessionStorage`: two widgets that differ only in their
stored client-side history submit different conversation records for the
same message, so hidden client-only state is the authoritative record,
contradicting the claim that only server-side persistence is
authoritative. -/
theorem client_history_authoritative_counterexample :
    (submitChat (initWidget (some [⟨"user", "earlier"⟩])) "hi" none).map
        (fun p => p.fst.history) = some [⟨"user", "earlier"⟩] ∧
    (submitChat (initWidget none) "hi" none).map (fun p => p.fst.history) = some [] ∧
    ([⟨"user", "earlier"⟩] : List ChatMsg) ≠ [] := by
  refine ⟨by decide, by decide, by decide⟩

/-- C9 (amended): conversation history is kept client-side — the widget
initialises from `sessionStorage`, sends exactly the client-stored history
with each request (with no session token anywhere in the payload), and
writes every update back to `sessionStorage`; the client-side store is thus
the authoritative record of the conversation. -/
theorem client_history_authoritative_amended (stored : Option (List ChatMsg))
    (input : String) (jid : Option Int) :
    (initWidget stored).chatHistory = loadHistoryFromStorage stored ∧
    (∀ b st', submitChat (initWidget stored) input jid = some (b, st') →
      b.history = loadHistoryFromStorage stored ∧
      (chatRequestJson b).getProp "sessionToken" = none ∧
      st'.storage = some st'.chatHistory) ∧
    (∀ d st2, (handleChatResponse d st2).storage =
      some (handleChatResponse d st2).chatHistory) ∧
    (∀ st2, (handleChatError st2).storage = some (handleChatError st2).chatHistory) := by
  refine ⟨rfl, ?_, ?_, fun st2 => rfl⟩
  · intro b st' hsub
    unfold submitChat at hsub
    by_cases h : jsTrim input = ""
    · simp [h] at hsub
    · simp only [h, if_false] at hsub
      injection hsub with h1
      injection h1 with hb hst
      subst hb; subst hst
      exact ⟨rfl, rfl, rfl⟩
  · intro d st2
    cases hd : d.history <;> simp [handleChatResponse, hd]

/-- C9 (witness): the amended statement evaluated at a widget whose
storage holds one earlier message. -/
theorem client_history_authoritative_amended_witness :
    (⟨"hi", [⟨"user", "earlier"⟩], none⟩ : ChatRequestBody).history =
      loadHistoryFromStorage (some [⟨"user", "earlier"⟩]) ∧
    (chatRequestJson ⟨"hi", [⟨"user", "earlier"⟩], none⟩).getProp "sessionToken" = none :=
  let h := (client_history_authoritative_amended (some [⟨"user", "earlier"⟩]) "hi" none).2.1
    { message := "hi", history := [⟨"user", "earlier"⟩], current_job_id := none }
    { chatHistory := [⟨"user", "earlier"⟩, ⟨"user", "hi"⟩],
      storage := some [⟨"user", "earlier"⟩, ⟨"user", "hi"⟩] }
    (by decide)
  ⟨h.1, h.2.1⟩

/-!
Part 3: the Conversation Context Manager.  The server-side implementation
is not present under `src/` (only the `chat_sessions` / `chat_messages`
schema and the client widget are); the operations are modelled from the
design document §3, §4.4 against that schema.
-/

/-- Size of one message under the character-count policy. -/
def msgSize (m : ChatMsg) : Nat := m.content.length

/-- Total size of a history slice. -/
def historySize (h : List ChatMsg) : Nat := (h.map msgSize).sum

/-- Total size of a list of retrieved chunks. -/
def chunksSize (cs : List String) : Nat := (cs.map String.length).sum

/-- Truncate a string to at most `n` characters. -/
def truncateStr (n : Nat) (s : String) : String := ⟨s.data.take n⟩

/-- Walk a newest-first message list, keeping messages while they fit in
the remaining budget and stopping at the first that does not. -/
def fitNewestGo : Nat → List ChatMsg → List ChatMsg
  | _, [] => []
  | avail, m :: rest =>
    if msgSize m ≤ avail then m :: fitNewestGo (avail - msgSize m) rest else []

/-- Modelled from the spec: the truncation step of `buildContext` (§4.4,
not present under `src/`) — select a suffix of the history whose total
size fits `avail`, dropping whole messages oldest-first. -/
def takeSuffixWithin (avail : Nat) (history : List ChatMsg) : List ChatMsg :=
  (fitNewestGo avail history.reverse).reverse

/-- Modelled from the spec: chunk shortening (§4.4 truncation policy, not
present under `src/`) — when the budget cannot hold the full chunks, each
chunk is shortened in turn (never dropped: the list length is kept). -/
def shortenChunks : Nat → List String → List String
  | _, [] => []
  | avail, c :: rest =>
    let keep := min avail c.length
    truncateStr keep c :: shortenChunks (avail - keep) rest

/-- The context payload assembled for one chat turn. -/
structure BuiltContext where
  userMessage : String
  retrievedChunks : List String
  trimmedHistory : List ChatMsg
  deriving Repr, DecidableEq

/-- Total size of an assembled payload. -/
def payloadSize (ctx : BuiltContext) : Nat :=
  ctx.userMessage.length + chunksSize ctx.retrievedChunks + historySize ctx.trimmedHistory

/-- Modelled from the spec: `buildContext` (§4.4, not present under
`src/`) — fit the new user message, the retrieved chunks and a suffix of
the history under the budget; when message plus chunks already exceed the
budget the chunks are shortened (not dropped) before the message; the
message itself is truncated only when it alone exceeds the budget. -/
def buildContext (budget : Nat) (history : List ChatMsg) (msg : String)
    (chunks : List String) : BuiltContext :=
  if msg.length + chunksSize chunks ≤ budget then
    { userMessage := msg, retrievedChunks := chunks,
      trimmedHistory := takeSuffixWithin (budget - (msg.length + chunksSize chunks)) history }
  else if msg.length ≤ budget then
    { userMessage := msg, retrievedChunks := shortenChunks (budget - msg.length) chunks,
      trimmedHistory := [] }
  else
    { userMessage := truncateStr budget msg, retrievedChunks := shortenChunks 0 chunks,
      trimmedHistory := [] }

/-- A row of `chat_messages` (schema `src/unnamed/part_000` lines 184–191):
session FK, role, content, optional weak job reference, creation time. -/
structure StoredMessage where
  id : Nat
  session_id : Nat
  role : String
  content : String
  related_job_id : Option Nat
  created_at : Nat
  deriving Repr, DecidableEq

/-- Modelled from the spec: the server-side message store (§3, §4.4; only
the `chat_messages` table and its `(session_id, created_at)` index exist
under `src/`). -/
structure ChatStore where
  messages : List StoredMessage
  nextId : Nat
  deriving Repr, DecidableEq

/-- Modelled from the spec: `appendTurn` (§4.4, not present under `src/`)
— append one message row; prior rows are never rewritten. -/
def appendTurn (st : ChatStore) (sid : Nat) (role content : String)
    (rjob : Option Nat) (now : Nat) : ChatStore :=
  { messages := st.messages ++ [⟨st.nextId, sid, role, content, rjob, now⟩],
    nextId := st.nextId + 1 }

/-- Modelled from the spec: the store-mutating operations (§4.4, §5; the
server is not present under `src/`).  Appending a turn is the only
operation that touches `chat_messages`. -/
inductive ChatStep : ChatStore → ChatStore → Prop where
  | append (st : ChatStore) (sid : Nat) (role content : String)
      (rjob : Option Nat) (now : Nat) :
      ChatStep st (appendTurn st sid role content rjob now)

/-- Modelled from the spec: the per-session read, in the order of index
`idx_chat_messages_session_id_created_at` (schema lines 193–194) — filter
one session, sort by `created_at`. -/
def readSession (st : ChatStore) (sid : Nat) : List StoredMessage :=
  List.insertionSort (fun a b => a.created_at ≤ b.created_at)
    (st.messages.filter (fun m => m.session_id == sid))

/-- Modelled from the spec: the stateful view of `buildContext` (§4.4) —
it reads the session history and returns the store unchanged; truncation
only affects the copy handed to the model. -/
def buildContextS (store : ChatStore) (sid : Nat) (budget : Nat) (msg : String)
    (chunks : List String) : BuiltContext × ChatStore :=
  (buildContext budget ((readSession store sid).map fun m => ⟨m.role, m.content⟩)
    msg chunks, store)

theorem historySize_cons (m : ChatMsg) (rest : List ChatMsg) :
    historySize (m :: rest) = msgSize m + historySize rest := by
  simp [historySize]

theorem fitNewestGo_size (avail : Nat) (l : List ChatMsg) :
    historySize (fitNewestGo avail l) ≤ avail := by
  induction l generalizing avail with
  | nil => simp [fitNewestGo, historySize]
  | cons m rest ih =>
    unfold fitNewestGo
    by_cases h : msgSize m ≤ avail
    · simp only [h, if_true, historySize_cons]
      have := ih (avail - msgSize m)
      omega
    · simp [h, historySize]

theorem fitNewestGo_isPrefix (avail : Nat) (l : List ChatMsg) :
    fitNewestGo avail l <+: l := by
  induction l generalizing avail with
  | nil => simp [fitNewestGo]
  | cons m rest ih =>
    unfold fitNewestGo
    by_cases h : msgSize m ≤ avail
    · simpa [h, List.cons_prefix_cons] using ih (avail - msgSize m)
    · simp [h]

theorem historySize_reverse (l : List ChatMsg) :
    historySize l.reverse = historySize l := by
  simp [historySize, List.sum_reverse]

theorem takeSuffixWithin_size (avail : Nat) (history : List ChatMsg) :
    historySize (takeSuffixWithin avail history) ≤ avail := by
  unfold takeSuffixWithin
  rw [historySize_reverse]
  exact fitNewestGo_size avail history.reverse

theorem takeSuffixWithin_isSuffix (avail : Nat) (history : List ChatMsg) :
    takeSuffixWithin avail history <:+ history := by
  obtain ⟨t, ht⟩ := fitNewestGo_isPrefix avail history.reverse
  refine ⟨t.reverse, ?_⟩
  unfold takeSuffixWithin
  rw [← List.reverse_append, ht, List.reverse_reverse]

theorem truncateStr_length (n : Nat) (s : String) :
    (truncateStr n s).length = min n s.length := by
  show (s.data.take n).length = min n s.length
  exact List.length_take n s.data

theorem chunksSize_cons (c : String) (rest : List String) :
    chunksSize (c :: rest) = c.length + chunksSize rest := by
  simp [chunksSize]

theorem shortenChunks_size (avail : Nat) (cs : List String) :
    chunksSize (shortenChunks avail cs) ≤ avail := by
  induction cs generalizing avail with
  | nil => simp [shortenChunks, chunksSize]
  | cons c rest ih =>
    simp only [shortenChunks, chunksSize_cons, truncateStr_length]
    have := ih (avail - min avail c.length)
    omega

theorem shortenChunks_length (avail : Nat) (cs : List String) :
    (shortenChunks avail cs).length = cs.length := by
  induction cs generalizing avail with
  | nil => simp [shortenChunks]
  | cons c rest ih => simp [shortenChunks, ih]

/-- C6: for every budget, history (of any length, including 0, 1 and
1000) and new user message, `buildContext` returns a payload of total size
at most the budget; truncation drops whole messages oldest-first (the kept
history is a suffix of the given one) and only from the returned context;
chunks are never dropped (their count is preserved) and are returned whole
whenever message plus chunks fit; the message itself survives untruncated
whenever it alone fits; and the stateful variant leaves the persisted
store untouched. -/
theorem buildContext_budget (budget : Nat) (history : List ChatMsg)
    (msg : String) (chunks : List String) :
    payloadSize (buildContext budget history msg chunks) ≤ budget ∧
    (buildContext budget history msg chunks).trimmedHistory <:+ history ∧
    (buildContext budget history msg chunks).retrievedChunks.length = chunks.length ∧
    (msg.length ≤ budget → (buildContext budget history msg chunks).userMessage = msg) ∧
    (msg.length + chunksSize chunks ≤ budget →
      (buildContext budget history msg chunks).retrievedChunks = chunks) ∧
    (∀ store sid, (buildContextS store sid budget msg chunks).snd = store) := by
  refine ⟨?_, ?_, ?_, ?_, ?_, fun _ _ => rfl⟩
  · unfold buildContext
    by_cases h1 : msg.length + chunksSize chunks ≤ budget
    · rw [if_pos h1]
      have := takeSuffixWithin_size (budget - (msg.length + chunksSize chunks)) history
      simp only [payloadSize]
      omega
    · rw [if_neg h1]
      by_cases h2 : msg.length ≤ budget
      · rw [if_pos h2]
        have := shortenChunks_size (budget - msg.length) chunks
        simp only [payloadSize, historySize, List.map_nil, List.sum_nil]
        omega
      · rw [if_neg h2]
        have hs := shortenChunks_size 0 chunks
        have hm := truncateStr_length budget msg
        simp only [payloadSize, historySize, List.map_nil, List.sum_nil]
        omega
  · unfold buildContext
    by_cases h1 : msg.length + chunksSize chunks ≤ budget
    · rw [if_pos h1]
      exact takeSuffixWithin_isSuffix _ _
    · rw [if_neg h1]
      by_cases h2 : msg.length ≤ budget
      · rw [if_pos h2]
        exact List.nil_suffix
      · rw [if_neg h2]
        exact List.nil_suffix
  · unfold buildContext
    by_cases h1 : msg.length + chunksSize chunks ≤ budget
    · rw [if_pos h1]
    · rw [if_neg h1]
      by_cases h2 : msg.length ≤ budget
      · rw [if_pos h2]
        exact shortenChunks_length _ _
      · rw [if_neg h2]
        exact shortenChunks_length _ _
  · intro hmsg
    unfold buildContext
    by_cases h1 : msg.length + chunksSize chunks ≤ budget
    · rw [if_pos h1]
    · rw [if_neg h1, if_pos hmsg]
  · intro hc
    unfold buildContext
    rw [if_pos hc]

/-- C6 (witness): the budget contract evaluated at budget 10, a one-message
history, the message `"hello"` and one oversized chunk. -/
theorem buildContext_budget_witness :
    payloadSize (buildContext 10 [⟨"user", "hey"⟩] "hello" ["abcdefgh"]) ≤ 10 ∧
    (buildContext 10 [⟨"user", "hey"⟩] "hello" ["abcdefgh"]).userMessage = "hello" :=
  ⟨(buildContext_budget 10 [⟨"user", "hey"⟩] "hello" ["abcdefgh"]).1,
   (buildContext_budget 10 [⟨"user", "hey"⟩] "hello" ["abcdefgh"]).2.2.2.1 (by decide)⟩

/-- C8: chat messages are append-only — across any sequence of store
operations the old message list is a verbatim prefix of the new one (so no
stored message is ever edited or individually deleted); the per-session
read order is sorted by `created_at` within the session (the
`(session_id, created_at)` index order) and is a permutation of exactly
that session's rows; and context building returns the store unchanged, so
budget truncation happens only at read time. -/
theorem chat_messages_append_only (st st' : ChatStore) (sid : Nat)
    (h : Relation.ReflTransGen ChatStep st st') :
    st.messages <+: st'.messages ∧
    (∀ m, m ∈ st.messages → m ∈ st'.messages) ∧
    (readSession st' sid).Pairwise (fun a b => a.created_at ≤ b.created_at) ∧
    (readSession st' sid).Perm
      (st'.messages.filter (fun m => m.session_id == sid)) ∧
    (∀ budget msg chunks, (buildContextS st' sid budget msg chunks).snd = st') := by
  have hpre : st.messages <+: st'.messages := by
    induction h with
    | refl => exact List.prefix_refl _
    | tail hsteps hstep ih =>
      cases hstep with
      | append sid2 role content rjob now =>
        exact ih.trans (List.prefix_append _ _)
  haveI : IsTotal StoredMessage (fun a b => a.created_at ≤ b.created_at) :=
    ⟨fun a b => Nat.le_total _ _⟩
  haveI : IsTrans StoredMessage (fun a b => a.created_at ≤ b.created_at) :=
    ⟨fun _ _ _ hab hbc => Nat.le_trans hab hbc⟩
  exact ⟨hpre, fun m hm => hpre.subset hm,
    List.sorted_insertionSort _ _, List.perm_insertionSort _ _,
    fun _ _ _ => rfl⟩

/-- C8 (witness): the append-only contract across two concrete appends to
session 1. -/
theorem chat_messages_append_only_witness :
    (⟨[], 0⟩ : ChatStore).messages <+:
      (appendTurn (appendTurn ⟨[], 0⟩ 1 "user" "q" none 5)
        1 "assistant" "a" none 6).messages :=
  (chat_messages_append_only ⟨[], 0⟩
    (appendTurn (appendTurn ⟨[], 0⟩ 1 "user" "q" none 5) 1 "assistant" "a" none 6) 1
    (Relation.ReflTransGen.tail
      (Relation.ReflTransGen.tail Relation.ReflTransGen.refl
        (ChatStep.append ⟨[], 0⟩ 1 "user" "q" none 5))
      (ChatStep.append (appendTurn ⟨[], 0⟩ 1 "user" "q" none 5)
        1 "assistant" "a" none 6))).1

/-!
Part 4: the retrieval pipeline — `rag_job_documents` schema
(`src/unnamed/part_000` lines 80–134), and the Document Chunker, Embedding
Indexer and Hybrid Retriever modelled from the design document §4.1–§4.3
(they are not present under `src/`).
-/

/-- Embedding dimension fixed by the deployed schema:
`embedding_vec vector(1536)` (`src/unnamed/part_000` line 98). -/
def EMBEDDING_DIM : Nat := 1536

/-- A free-text section of a job (`job_sections` table, lines 66–75). -/
structure JobSection where
  section_type : String
  text_content : String
  deriving Repr, DecidableEq

/-- A job record as read from the Job Corpus Store (`jobs`,
`job_locations`, `job_sections` tables). -/
structure JobRecord where
  job_id : Nat
  title : String
  company_name : String
  locations : List String
  salary_raw_text : String
  deadline_text : String
  cap_bac : String
  sections : List JobSection
  deriving Repr, DecidableEq

/-- A row of `rag_job_documents` (`src/unnamed/part_000` lines 84–102):
the embedding is a rational vector (pgvector `vector(1536)`), timestamps
are abstract ticks. -/
structure RagJobDocument where
  job_id : Nat
  doc_type : String
  section_type : Option String
  chunk_index : Nat
  content : String
  metadata : List (String × String)
  embedding_vec : List Rat
  created_at : Nat
  updated_at : Nat
  deriving Repr, DecidableEq

/-- Modelled from the spec: sentence splitting for the Document Chunker
(§4.1; the chunker is not present under `src/`).  Sentences end at a full
stop; empty fragments (hence whitespace-only sections) produce nothing. -/
def splitSentences (text : String) : List String :=
  ((text.splitOn ".").map jsTrim).filter (fun s => s ≠ "")

/-- Greedy packing step: extend the current chunk while the ceiling
allows, else emit it and start a new chunk at the sentence boundary. -/
def packGo (maxLen : Nat) : List String → String → List String
  | [], cur => [cur]
  | s :: rest, cur =>
    if cur.length + 1 + s.length ≤ maxLen then packGo maxLen rest (cur ++ " " ++ s)
    else cur :: packGo maxLen rest s

/-- Modelled from the spec: split a section text into chunks under a
maximum-length policy, preferring sentence boundaries over hard truncation
(§4.1).  A whitespace-only text yields no chunk. -/
def chunksOfText (maxLen : Nat) (text : String) : List String :=
  match splitSentences text with
  | [] => []
  | s :: rest => packGo maxLen rest s

/-- Metadata snapshot captured at index time (§3: job title, company name,
locations, salary text, deadline, cap_bac). -/
def metadataSnapshot (j : JobRecord) : List (String × String) :=
  [("job_title", j.title), ("company_name", j.company_name),
   ("locations", String.intercalate ", " j.locations),
   ("salary_text", j.salary_raw_text), ("deadline", j.deadline_text),
   ("cap_bac", j.cap_bac)]

/-- Modelled from the spec: content of the synthesized `job_full` summary
document (§4.1) — title, company, locations, salary, deadline, and a
condensed excerpt of every section. -/
def fullContent (maxLen : Nat) (j : JobRecord) : String :=
  j.title ++ " - " ++ j.company_name ++ " - " ++
  String.intercalate ", " j.locations ++ " - " ++ j.salary_raw_text ++
  " - " ++ j.deadline_text ++ " | " ++
  String.intercalate " " (j.sections.map (fun s => truncateStr maxLen s.text_content))

/-- Modelled from the spec: self-contained content of one section chunk
(§3 `content`: denormalized with job title and company). -/
def sectionChunkContent (j : JobRecord) (s : JobSection) (c : String) : String :=
  j.title ++ " - " ++ j.company_name ++ " | " ++ s.section_type ++ ": " ++ c

/-- One tuple produced by the Document Chunker (§4.1). -/
structure ChunkTuple where
  doc_type : String
  section_type : Option String
  chunk_index : Nat
  content : String
  deriving Repr, DecidableEq

/-- Chunk tuples of one section: sequential zero-based `chunk_index`
within the section, tagged with the section's type. -/
def sectionDocs (maxLen : Nat) (j : JobRecord) (s : JobSection) : List ChunkTuple :=
  (chunksOfText maxLen s.text_content).enum.map fun p =>
    ⟨"job_section", some s.section_type, p.fst, sectionChunkContent j s p.snd⟩

/-- Modelled from the spec: the Document Chunker (§4.1, not present under
`src/`) — a deterministic function of the `JobRecord`: exactly one
`job_full` document at chunk 0, then the per-section chunks. -/
def chunkJob (maxLen : Nat) (j : JobRecord) : List ChunkTuple :=
  ⟨"job_full", none, 0, fullContent maxLen j⟩ ::
    j.sections.flatMap (sectionDocs maxLen j)

/-- State of the retrieval store: the `jobs` table ids plus the
`rag_job_documents` rows. -/
structure RagState where
  jobs : List Nat
  docs : List RagJobDocument
  deriving Repr, DecidableEq

/-- The composite key of unique index `uq_rag_job_docs_job_doc_chunk`
(`src/unnamed/part_000` lines 104–106). -/
def docKey (d : RagJobDocument) : Nat × String × Option String × Nat :=
  (d.job_id, d.doc_type, d.section_type, d.chunk_index)

/-- The key a chunk tuple will occupy for a given job. -/
def chunkKey (jid : Nat) (c : ChunkTuple) : Nat × String × Option String × Nat :=
  (jid, c.doc_type, c.section_type, c.chunk_index)

/-- Modelled from the spec: per-chunk reconciliation of `reindex` (§4.2,
not present under `src/`) — a matching key is kept as-is when content is
unchanged, updated in place (new content, metadata, embedding, bumped
`updated_at`, original `created_at`) when it differs, and inserted fresh
otherwise. -/
def reconcileChunk (embed : String → List Rat) (now : Nat) (j : JobRecord)
    (olds : List RagJobDocument) (c : ChunkTuple) : RagJobDocument :=
  match olds.find? (fun d => decide (docKey d = chunkKey j.job_id c)) with
  | some d =>
    if d.content = c.content then d
    else { d with
           content := c.content,
           metadata := metadataSnapshot j,
           embedding_vec := embed c.content,
           updated_at := now }
  | none =>
    { job_id := j.job_id, doc_type := c.doc_type, section_type := c.section_type,
      chunk_index := c.chunk_index, content := c.content,
      metadata := metadataSnapshot j, embedding_vec := embed c.content,
      created_at := now, updated_at := now }

/-- Modelled from the spec: `reindex(job_id)` (§4.2, not present under
`src/`) — run the Chunker and set-reconcile against the job's existing
documents: matching keys updated only when content differs, keys absent
from the new chunk set deleted, new keys inserted; rows of other jobs are
untouched and the job id is registered in `jobs`. -/
def reindexJob (maxLen : Nat) (embed : String → List Rat) (now : Nat)
    (j : JobRecord) (st : RagState) : RagState :=
  let chunks := chunkJob maxLen j
  let olds := st.docs.filter (fun d => decide (d.job_id = j.job_id))
  let others := st.docs.filter (fun d => decide (d.job_id ≠ j.job_id))
  { jobs := if j.job_id ∈ st.jobs then st.jobs else st.jobs ++ [j.job_id],
    docs := others ++ chunks.map (reconcileChunk embed now j olds) }

/-- Number of rows written (inserted, updated or deleted) by one reindex
(§4.2); a matching key with unchanged content is not written. -/
def reindexWrites (maxLen : Nat) (j : JobRecord) (st : RagState) : Nat :=
  let chunks := chunkJob maxLen j
  let olds := st.docs.filter (fun d => decide (d.job_id = j.job_id))
  (chunks.filter (fun c =>
    match olds.find? (fun d => decide (docKey d = chunkKey j.job_id c)) with
    | some d => decide (d.content ≠ c.content)
    | none => true)).length +
  (olds.filter (fun d =>
    !(chunks.any (fun c => decide (docKey d = chunkKey j.job_id c))))).length

/-- The `ON DELETE CASCADE` of `rag_job_documents.job_id`
(`src/unnamed/part_000` lines 84–87): deleting a job removes the job row
and every document row referencing it. -/
def deleteJob (jid : Nat) (st : RagState) : RagState :=
  { jobs := st.jobs.filter (fun i => decide (i ≠ jid)),
    docs := st.docs.filter (fun d => decide (d.job_id ≠ jid)) }

/-- Well-formed job record: one `job_sections` entry per section type. -/
def WFJob (j : JobRecord) : Prop :=
  (j.sections.map (fun s => s.section_type)).Nodup

/-- States reachable by the indexing operations from the empty store; the
external embedding capability has the fixed deployment output dimension
(§1, §6 `embed(text) → vector[D]`). -/
inductive Reach : RagState → Prop where
  | init : Reach ⟨[], []⟩
  | reindex (maxLen : Nat) (embed : String → List Rat) (now : Nat)
      (j : JobRecord) (st : RagState) (hwf : WFJob j)
      (hemb : ∀ t, (embed t).length = EMBEDDING_DIM) (hst : Reach st) :
      Reach (reindexJob maxLen embed now j st)
  | delete (jid : Nat) (st : RagState) (hst : Reach st) :
      Reach (deleteJob jid st)

/-- Dot product of two rational vectors. -/
def dot (u v : List Rat) : Rat := (List.zipWith (fun a b => a * b) u v).sum

/-- Squared Euclidean norm. -/
def normSq (v : List Rat) : Rat := dot v v

/-- Modelled from the spec: rational ranking key ordering documents
exactly as cosine similarity does (§4.3 `similarity metric = cosine`;
`idx_rag_job_docs_embedding_vec ... vector_cosine_ops`, schema lines
130–134).  The key is the signed square `sign(d)·d²⁄(‖q‖²‖v‖²)` of the
cosine — a strictly monotone image of it, exact over the rationals;
degenerate zero-norm vectors rank as similarity 0. -/
def cosScoreKey (q v : List Rat) : Rat :=
  if normSq q * normSq v = 0 then 0
  else if 0 ≤ dot q v then dot q v ^ 2 / (normSq q * normSq v)
  else -(dot q v ^ 2 / (normSq q * normSq v))

/-- Modelled from the spec: the deterministic ranking rule of the Hybrid
Retriever (§4.3): higher cosine score first, exact ties broken by
most-recent `updated_at`, then by lowest `job_id`. -/
def rankRel (q : List Rat) (a b : RagJobDocument) : Prop :=
  cosScoreKey q b.embedding_vec < cosScoreKey q a.embedding_vec ∨
    (cosScoreKey q a.embedding_vec = cosScoreKey q b.embedding_vec ∧
      (b.updated_at < a.updated_at ∨
        (a.updated_at = b.updated_at ∧ a.job_id ≤ b.job_id)))

instance rankRelDecidable (q : List Rat) : DecidableRel (rankRel q) := fun a b => by
  unfold rankRel
  infer_instance

/-- Retrieval failure (§4.3, §7): an embedding-dimension mismatch is a
fatal configuration error. -/
inductive RetrievalError where
  | dimensionMismatch : RetrievalError
  deriving Repr, DecidableEq

/-- Modelled from the spec: the Hybrid Retriever (§4.3, not present under
`src/`) — reject a query embedding of the wrong dimension loudly, restrict
to documents passing the metadata filter whose parent job still exists
(orphan exclusion), rank deterministically, return at most `top_k`. -/
def retrieve (q : List Rat) (metaFilter : RagJobDocument → Bool) (top_k : Nat)
    (st : RagState) : Except RetrievalError (List RagJobDocument) :=
  if q.length ≠ EMBEDDING_DIM then .error .dimensionMismatch
  else .ok
    ((List.insertionSort (rankRel q)
      (st.docs.filter (fun d => metaFilter d && decide (d.job_id ∈ st.jobs)))).take top_k)

/-- Documents of a retrieval result (empty on error). -/
def resultDocs (r : Except RetrievalError (List RagJobDocument)) :
    List RagJobDocument :=
  match r with
  | .ok l => l
  | .error _ => []

/-- Uniqueness enforced by index `uq_rag_job_docs_job_doc_chunk` (schema
lines 104–106) and maintained by the indexing operations: no two rows
share `(job_id, doc_type, section_type, chunk_index)`. -/
def uq_rag_job_docs_job_doc_chunk (docs : List RagJobDocument) : Prop :=
  (docs.map docKey).Nodup

/-- Chunk indices of one document group, in row order. -/
def groupIndices (docs : List RagJobDocument) (jid : Nat) (dt : String)
    (sec : Option String) : List Nat :=
  (docs.filter (fun d =>
    decide (d.job_id = jid ∧ d.doc_type = dt ∧ d.section_type = sec))).map
    (fun d => d.chunk_index)

/-- Dense zero-based chunk indices in every document group. -/
def DenseGroups (docs : List RagJobDocument) : Prop :=
  ∀ jid dt sec, groupIndices docs jid dt sec =
    List.range (groupIndices docs jid dt sec).length

theorem mem_sectionDocs {m : Nat} {j : JobRecord} {s : JobSection} {c : ChunkTuple}
    (hm : c ∈ sectionDocs m j s) :
    c.doc_type = "job_section" ∧ c.section_type = some s.section_type := by
  unfold sectionDocs at hm
  obtain ⟨p, _, rfl⟩ := List.mem_map.mp hm
  exact ⟨rfl, rfl⟩

theorem sectionDocs_indices (m : Nat) (j : JobRecord) (s : JobSection) :
    (sectionDocs m j s).map (fun c => c.chunk_index) =
      List.range (chunksOfText m s.text_content).length := by
  unfold sectionDocs
  rw [List.map_map, ← List.enum_map_fst (chunksOfText m s.text_content)]
  rfl

theorem sectionDocs_length (m : Nat) (j : JobRecord) (s : JobSection) :
    (sectionDocs m j s).length = (chunksOfText m s.text_content).length := by
  unfold sectionDocs
  rw [List.length_map, List.enum_length]

theorem sectionDocs_keys (m : Nat) (j : JobRecord) (s : JobSection) :
    (sectionDocs m j s).map (fun c => (c.doc_type, c.section_type, c.chunk_index)) =
      (List.range (chunksOfText m s.text_content).length).map
        (fun i => (("job_section" : String), some s.section_type, i)) := by
  unfold sectionDocs
  rw [List.map_map, ← List.enum_map_fst (chunksOfText m s.text_content), List.map_map]
  rfl

theorem chunkJob_triples_nodup (m : Nat) (j : JobRecord) (hwf : WFJob j) :
    ((chunkJob m j).map
      (fun c => (c.doc_type, c.section_type, c.chunk_index))).Nodup := by
  have hpw : j.sections.Pairwise (fun a b => a.section_type ≠ b.section_type) := by
    have := hwf
    unfold WFJob at this
    rw [List.Nodup, List.pairwise_map] at this
    exact this
  unfold chunkJob
  rw [List.map_cons, List.nodup_cons]
  constructor
  · intro hmem
    rw [List.map_flatMap] at hmem
    obtain ⟨s, _, hmem'⟩ := List.mem_flatMap.mp hmem
    obtain ⟨c, hc, heq⟩ := List.mem_map.mp hmem'
    have h1 := (mem_sectionDocs hc).1
    have h2 := congrArg Prod.fst heq
    simp only at h2
    rw [h1] at h2
    exact absurd h2 (by decide)
  · rw [List.map_flatMap, List.nodup_flatMap]
    constructor
    · intro s _
      rw [sectionDocs_keys]
      refine List.Nodup.map ?_ (List.nodup_range _)
      intro x y hxy
      simpa using congrArg (fun p => p.snd.snd) hxy
    · refine hpw.imp ?_
      intro a b hne k hka hkb
      obtain ⟨c, hc, rfl⟩ := List.mem_map.mp hka
      obtain ⟨c', hc', heq⟩ := List.mem_map.mp hkb
      have ha := (mem_sectionDocs hc).2
      have hb := (mem_sectionDocs hc').2
      have h2 := congrArg (fun p => p.snd.fst) heq
      simp only at h2
      rw [hb, ha] at h2
      exact hne (Option.some.inj h2).symm

theorem flatMap_filter_section (m : Nat) (j : JobRecord) (t : String)
    (l : List JobSection)
    (hnd : l.Pairwise (fun a b => a.section_type ≠ b.section_type)) :
    (l.flatMap (sectionDocs m j)).filter
        (fun c => decide (c.doc_type = "job_section" ∧ c.section_type = some t)) =
      (match l.find? (fun s => decide (s.section_type = t)) with
       | some s => sectionDocs m j s
       | none => []) := by
  induction l with
  | nil => rfl
  | cons s rest ih =>
    rw [List.flatMap_cons, List.filter_append]
    by_cases hs : s.section_type = t
    · have h1 : (sectionDocs m j s).filter
          (fun c => decide (c.doc_type = "job_section" ∧ c.section_type = some t)) =
          sectionDocs m j s := by
        rw [List.filter_eq_self]
        intro c hc
        have hm := mem_sectionDocs hc
        simp [hm.1, hm.2, hs]
      have h2 : (rest.flatMap (sectionDocs m j)).filter
          (fun c => decide (c.doc_type = "job_section" ∧ c.section_type = some t)) =
          [] := by
        rw [List.filter_eq_nil_iff]
        intro c hc
        obtain ⟨s', hs', hc'⟩ := List.mem_flatMap.mp hc
        have hm := mem_sectionDocs hc'
        have hne : s'.section_type ≠ t := by
          intro heq
          exact (List.pairwise_cons.mp hnd).1 s' hs' (hs.trans heq.symm)
        simp [hm.1, hm.2, hne]
      rw [h1, h2, List.append_nil, List.find?_cons]
      simp [hs]
    · have h1 : (sectionDocs m j s).filter
          (fun c => decide (c.doc_type = "job_section" ∧ c.section_type = some t)) =
          [] := by
        rw [List.filter_eq_nil_iff]
        intro c hc
        have hm := mem_sectionDocs hc
        simp [hm.1, hm.2, hs]
      rw [h1, List.nil_append, List.find?_cons]
      have : (decide (s.section_type = t)) = false := by simp [hs]
      rw [this]
      exact ih hnd.of_cons

theorem chunkJob_group_indices (m : Nat) (j : JobRecord) (hwf : WFJob j)
    (dt : String) (sec : Option String) :
    ((chunkJob m j).filter
        (fun c => decide (c.doc_type = dt ∧ c.section_type = sec))).map
        (fun c => c.chunk_index) =
      List.range ((chunkJob m j).filter
        (fun c => decide (c.doc_type = dt ∧ c.section_type = sec))).length := by
  have hpw : j.sections.Pairwise (fun a b => a.section_type ≠ b.section_type) := by
    have h := hwf
    unfold WFJob at h
    rw [List.Nodup, List.pairwise_map] at h
    exact h
  unfold chunkJob
  rw [List.filter_cons]
  rcases sec with _ | t
  · -- sec = none: only the job_full document can belong to the group
    have h2 : (j.sections.flatMap (sectionDocs m j)).filter
        (fun c => decide (c.doc_type = dt) &&
          decide (c.section_type = (none : Option String))) = [] := by
      rw [List.filter_eq_nil_iff]
      intro c hc
      obtain ⟨s', _, hc'⟩ := List.mem_flatMap.mp hc
      have hm := mem_sectionDocs hc'
      simp [hm.2]
    by_cases hdt : ("job_full" : String) = dt
    · subst hdt
      simp [h2]
      decide
    · simp [hdt, h2]
  · -- sec = some t: only job_section documents of the section typed t
    have hfull : (decide ((("job_full" : String)) = dt ∧
        (none : Option String) = some t)) = false := by simp
    simp only [hfull, Bool.false_eq_true, if_false]
    by_cases hdt : dt = "job_section"
    · subst hdt
      rw [flatMap_filter_section m j t j.sections hpw]
      cases hfind : j.sections.find? (fun s => decide (s.section_type = t)) with
      | none => rfl
      | some s =>
        show (sectionDocs m j s).map (fun c => c.chunk_index) =
          List.range (sectionDocs m j s).length
        rw [sectionDocs_indices, sectionDocs_length]
    · have h2 : (j.sections.flatMap (sectionDocs m j)).filter
          (fun c => decide (c.doc_type = dt ∧ c.section_type = some t)) = [] := by
        rw [List.filter_eq_nil_iff]
        intro c hc
        obtain ⟨s', _, hc'⟩ := List.mem_flatMap.mp hc
        have hm := mem_sectionDocs hc'
        intro hp
        exact hdt (((of_decide_eq_true hp).1.symm.trans hm.1).symm).symm
      rw [h2]
      rfl

theorem reconcileChunk_key (embed : String → List Rat) (now : Nat) (j : JobRecord)
    (olds : List RagJobDocument) (c : ChunkTuple) :
    docKey (reconcileChunk embed now j olds c) = chunkKey j.job_id c := by
  unfold reconcileChunk
  cases hfind : olds.find? (fun d => decide (docKey d = chunkKey j.job_id c)) with
  | none => rfl
  | some d =>
    have hp := List.find?_some hfind
    have hk : docKey d = chunkKey j.job_id c := of_decide_eq_true hp
    by_cases hc : d.content = c.content
    · simpa [hc] using hk
    · simp only [hc, if_false]
      simpa [docKey] using hk

theorem reconcileChunk_content (embed : String → List Rat) (now : Nat)
    (j : JobRecord) (olds : List RagJobDocument) (c : ChunkTuple) :
    (reconcileChunk embed now j olds c).content = c.content := by
  unfold reconcileChunk
  cases hfind : olds.find? (fun d => decide (docKey d = chunkKey j.job_id c)) with
  | none => rfl
  | some d =>
    by_cases hc : d.content = c.content
    · simp [hc]
    · simp [hc]

theorem reconcileChunk_job_id (embed : String → List Rat) (now : Nat)
    (j : JobRecord) (olds : List RagJobDocument) (c : ChunkTuple) :
    (reconcileChunk embed now j olds c).job_id = j.job_id :=
  congrArg Prod.fst (reconcileChunk_key embed now j olds c)

theorem reconcileChunk_doc_type (embed : String → List Rat) (now : Nat)
    (j : JobRecord) (olds : List RagJobDocument) (c : ChunkTuple) :
    (reconcileChunk embed now j olds c).doc_type = c.doc_type :=
  congrArg (fun p => p.snd.fst) (reconcileChunk_key embed now j olds c)

theorem reconcileChunk_section_type (embed : String → List Rat) (now : Nat)
    (j : JobRecord) (olds : List RagJobDocument) (c : ChunkTuple) :
    (reconcileChunk embed now j olds c).section_type = c.section_type :=
  congrArg (fun p => p.snd.snd.fst) (reconcileChunk_key embed now j olds c)

theorem reconcileChunk_chunk_index (embed : String → List Rat) (now : Nat)
    (j : JobRecord) (olds : List RagJobDocument) (c : ChunkTuple) :
    (reconcileChunk embed now j olds c).chunk_index = c.chunk_index :=
  congrArg (fun p => p.snd.snd.snd) (reconcileChunk_key embed now j olds c)

theorem find?_map_key {α β γ : Type} [DecidableEq γ] (f : α → β) (keyF : β → γ)
    (k : α → γ) (l : List α) (hkey : ∀ a ∈ l, keyF (f a) = k a)
    (hnd : (l.map k).Nodup) (c : α) (hc : c ∈ l) :
    (l.map f).find? (fun d => decide (keyF d = k c)) = some (f c) := by
  induction l with
  | nil => cases hc
  | cons a rest ih =>
    rw [List.map_cons, List.find?_cons]
    rcases List.mem_cons.mp hc with rfl | hc'
    · have h1 : keyF (f c) = k c := hkey c (by simp)
      simp [h1]
    · have hka : keyF (f a) = k a := hkey a (by simp)
      have hne : ¬(k a = k c) := by
        intro heq
        rw [List.map_cons, List.nodup_cons] at hnd
        exact hnd.1 (heq ▸ List.mem_map_of_mem k hc')
      have : (decide (keyF (f a) = k c)) = false := by simp [hka, hne]
      rw [this]
      exact ih (fun x hx => hkey x (List.mem_cons_of_mem a hx))
        (by rw [List.map_cons, List.nodup_cons] at hnd; exact hnd.2) hc'

theorem chunkKey_nodup (m : Nat) (j : JobRecord) (hwf : WFJob j) (jid : Nat) :
    ((chunkJob m j).map (chunkKey jid)).Nodup := by
  have h := chunkJob_triples_nodup m j hwf
  have heq : (chunkJob m j).map (chunkKey jid) =
      ((chunkJob m j).map (fun c => (c.doc_type, c.section_type, c.chunk_index))).map
        (fun tr => (jid, tr)) := by
    rw [List.map_map]
    rfl
  rw [heq]
  refine List.Nodup.map ?_ h
  intro x y hxy
  exact (Prod.mk.injEq _ _ _ _).mp hxy |>.2

theorem groupIndices_append (l1 l2 : List RagJobDocument) (jid : Nat)
    (dt : String) (sec : Option String) :
    groupIndices (l1 ++ l2) jid dt sec =
      groupIndices l1 jid dt sec ++ groupIndices l2 jid dt sec := by
  unfold groupIndices
  rw [List.filter_append, List.map_append]

theorem groupIndices_filter_ne (docs : List RagJobDocument) (jid0 jid : Nat)
    (dt : String) (sec : Option String) (hne : jid ≠ jid0) :
    groupIndices (docs.filter (fun d => decide (d.job_id ≠ jid0))) jid dt sec =
      groupIndices docs jid dt sec := by
  unfold groupIndices
  rw [List.filter_filter]
  have hcong : docs.filter (fun d =>
      (decide (d.job_id = jid ∧ d.doc_type = dt ∧ d.section_type = sec)) &&
        (decide (d.job_id ≠ jid0))) =
      docs.filter (fun d =>
        decide (d.job_id = jid ∧ d.doc_type = dt ∧ d.section_type = sec)) := by
    apply List.filter_congr
    intro d _
    rcases Decidable.em (d.job_id = jid ∧ d.doc_type = dt ∧ d.section_type = sec)
      with hg | hg
    · have hd : d.job_id ≠ jid0 := by rw [hg.1]; exact hne
      simp [hg, hd, hne]
    · simp [hg]
  rw [hcong]

theorem groupIndices_filter_deleted (docs : List RagJobDocument) (jid0 : Nat)
    (dt : String) (sec : Option String) :
    groupIndices (docs.filter (fun d => decide (d.job_id ≠ jid0))) jid0 dt sec = [] := by
  unfold groupIndices
  rw [List.filter_filter]
  have hnil : docs.filter (fun d =>
      (decide (d.job_id = jid0 ∧ d.doc_type = dt ∧ d.section_type = sec)) &&
        (decide (d.job_id ≠ jid0))) = [] := by
    rw [List.filter_eq_nil_iff]
    intro d _
    rcases Decidable.em (d.job_id = jid0 ∧ d.doc_type = dt ∧ d.section_type = sec)
      with hg | hg
    · simp [hg, hg.1]
    · simp [hg]
  rw [hnil]
  rfl

theorem groupIndices_reconcile (embed : String → List Rat) (now : Nat)
    (j : JobRecord) (olds : List RagJobDocument) (chunks : List ChunkTuple)
    (dt : String) (sec : Option String) :
    groupIndices (chunks.map (reconcileChunk embed now j olds)) j.job_id dt sec =
      (chunks.filter (fun c => decide (c.doc_type = dt ∧ c.section_type = sec))).map
        (fun c => c.chunk_index) := by
  unfold groupIndices
  rw [List.filter_map, List.map_map]
  have hfil : chunks.filter ((fun d =>
      decide (d.job_id = j.job_id ∧ d.doc_type = dt ∧ d.section_type = sec)) ∘
        reconcileChunk embed now j olds) =
      chunks.filter (fun c => decide (c.doc_type = dt ∧ c.section_type = sec)) := by
    apply List.filter_congr
    intro c _
    simp [Function.comp, reconcileChunk_job_id, reconcileChunk_doc_type,
      reconcileChunk_section_type]
  rw [hfil]
  apply List.map_congr_left
  intro c _
  exact reconcileChunk_chunk_index embed now j olds c

theorem groupIndices_reconcile_ne (embed : String → List Rat) (now : Nat)
    (j : JobRecord) (olds : List RagJobDocument) (chunks : List ChunkTuple)
    (jid : Nat) (dt : String) (sec : Option String) (hne : jid ≠ j.job_id) :
    groupIndices (chunks.map (reconcileChunk embed now j olds)) jid dt sec = [] := by
  unfold groupIndices
  have hnil : (chunks.map (reconcileChunk embed now j olds)).filter (fun d =>
      decide (d.job_id = jid ∧ d.doc_type = dt ∧ d.section_type = sec)) = [] := by
    rw [List.filter_eq_nil_iff]
    intro d hd
    obtain ⟨c, _, rfl⟩ := List.mem_map.mp hd
    intro hp
    have hg := of_decide_eq_true hp
    rw [reconcileChunk_job_id] at hg
    exact hne hg.1.symm
  rw [hnil]
  rfl

theorem docKey_map_reconcile (embed : String → List Rat) (now : Nat)
    (j : JobRecord) (olds : List RagJobDocument) (chunks : List ChunkTuple) :
    (chunks.map (reconcileChunk embed now j olds)).map docKey =
      chunks.map (chunkKey j.job_id) := by
  rw [List.map_map]
  apply List.map_congr_left
  intro c _
  exact reconcileChunk_key embed now j olds c

/-- C1: in every state reachable by the indexing operations, no two
`rag_job_documents` rows share the composite key of
`uq_rag_job_docs_job_doc_chunk`; per job the `(doc_type, section_type,
chunk_index)` triples are duplicate-free; and within every `(job_id,
doc_type, section_type)` document group the chunk indices are exactly
`0, 1, ..., n-1` in order, with no gaps. -/
theorem rag_reachable_invariant (st : RagState) (h : Reach st) :
    uq_rag_job_docs_job_doc_chunk st.docs ∧
    (∀ jid, ((st.docs.filter (fun d => decide (d.job_id = jid))).map
        (fun d => (d.doc_type, d.section_type, d.chunk_index))).Nodup) ∧
    DenseGroups st.docs := by
  have main : uq_rag_job_docs_job_doc_chunk st.docs ∧ DenseGroups st.docs := by
    induction h with
    | init =>
      constructor
      · simp [uq_rag_job_docs_job_doc_chunk]
      · intro jid dt sec
        simp [groupIndices]
    | reindex m embed now j st2 hwf hemb hst ih =>
      obtain ⟨ihU, ihD⟩ := ih
      constructor
      · unfold uq_rag_job_docs_job_doc_chunk
        simp only [reindexJob]
        rw [List.map_append]
        refine List.Nodup.append ?_ ?_ ?_
        · exact List.Nodup.sublist (List.Sublist.map docKey (List.filter_sublist _)) ihU
        · rw [docKey_map_reconcile]
          exact chunkKey_nodup m j hwf j.job_id
        · intro k hk1 hk2
          obtain ⟨d, hd, rfl⟩ := List.mem_map.mp hk1
          have hdne : d.job_id ≠ j.job_id :=
            of_decide_eq_true (List.mem_filter.mp hd).2
          rw [docKey_map_reconcile] at hk2
          obtain ⟨c, _, heq⟩ := List.mem_map.mp hk2
          have hfst := congrArg Prod.fst heq
          simp only [chunkKey, docKey] at hfst
          exact hdne hfst.symm
      · intro jid dt sec
        simp only [reindexJob]
        rw [groupIndices_append]
        by_cases hj : jid = j.job_id
        · subst hj
          rw [groupIndices_filter_deleted, List.nil_append, groupIndices_reconcile,
            List.length_map]
          exact chunkJob_group_indices m j hwf dt sec
        · rw [groupIndices_reconcile_ne _ _ _ _ _ _ _ _ hj, List.append_nil,
            groupIndices_filter_ne _ _ _ _ _ hj]
          exact ihD jid dt sec
    | delete jid0 st2 hst ih =>
      obtain ⟨ihU, ihD⟩ := ih
      constructor
      · unfold uq_rag_job_docs_job_doc_chunk
        simp only [deleteJob]
        exact List.Nodup.sublist (List.Sublist.map docKey (List.filter_sublist _)) ihU
      · intro jid dt sec
        simp only [deleteJob]
        by_cases hj : jid = jid0
        · subst hj
          rw [groupIndices_filter_deleted]
          rfl
        · rw [groupIndices_filter_ne _ _ _ _ _ hj]
          exact ihD jid dt sec
  refine ⟨main.1, ?_, main.2⟩
  intro jid
  have hnd : ((st.docs.filter (fun d => decide (d.job_id = jid))).map docKey).Nodup :=
    List.Nodup.sublist (List.Sublist.map docKey (List.filter_sublist _)) main.1
  have heq : (st.docs.filter (fun d => decide (d.job_id = jid))).map docKey =
      ((st.docs.filter (fun d => decide (d.job_id = jid))).map
        (fun d => (d.doc_type, d.section_type, d.chunk_index))).map
        (fun tr => (jid, tr)) := by
    rw [List.map_map]
    apply List.map_congr_left
    intro d hd
    have hji : d.job_id = jid := of_decide_eq_true (List.mem_filter.mp hd).2
    simp [docKey, hji]
  rw [heq] at hnd
  exact List.Nodup.of_map _ hnd

/-- A concrete crawled job used to exercise the pipeline. -/
def demoJob : JobRecord :=
  { job_id := 1, title := "Dev", company_name := "ACME", locations := ["HN"],
    salary_raw_text := "10tr", deadline_text := "2025-12", cap_bac := "junior",
    sections := [⟨"mo_ta_cong_viec", "A. B. C."⟩] }

/-- A stub embedding capability with the deployed output dimension. -/
def demoEmbed : String → List Rat := fun _ => List.replicate EMBEDDING_DIM 0

/-- The store after indexing `demoJob` into the empty store. -/
def demoState : RagState := reindexJob 1 demoEmbed 7 demoJob ⟨[], []⟩

/-- C1 (witness): the invariant evaluated on the store obtained by
reindexing `demoJob` into the empty store. -/
theorem rag_reachable_invariant_witness :
    uq_rag_job_docs_job_doc_chunk demoState.docs ∧
    groupIndices demoState.docs 1 "job_section" (some "mo_ta_cong_viec") =
      List.range (groupIndices demoState.docs 1 "job_section"
        (some "mo_ta_cong_viec")).length := by
  have hreach : Reach demoState :=
    Reach.reindex 1 demoEmbed 7 demoJob ⟨[], []⟩ (by unfold WFJob; decide)
      (fun t => List.length_replicate EMBEDDING_DIM 0) Reach.init
  exact ⟨(rag_reachable_invariant demoState hreach).1,
    (rag_reachable_invariant demoState hreach).2.2 1 "job_section"
      (some "mo_ta_cong_viec")⟩

theorem RagState.ext2 (a b : RagState) (h1 : a.jobs = b.jobs)
    (h2 : a.docs = b.docs) : a = b := by
  cases a
  cases b
  simp_all

theorem reindexJob_docs_filter_ne (m : Nat) (embed : String → List Rat)
    (now : Nat) (j : JobRecord) (st : RagState) :
    (reindexJob m embed now j st).docs.filter
        (fun d => decide (d.job_id ≠ j.job_id)) =
      st.docs.filter (fun d => decide (d.job_id ≠ j.job_id)) := by
  simp only [reindexJob]
  rw [List.filter_append]
  have h1 : (st.docs.filter (fun d => decide (d.job_id ≠ j.job_id))).filter
      (fun d => decide (d.job_id ≠ j.job_id)) =
      st.docs.filter (fun d => decide (d.job_id ≠ j.job_id)) := by
    rw [List.filter_eq_self]
    intro a ha
    exact (List.mem_filter.mp ha).2
  have h2 : ((chunkJob m j).map (reconcileChunk embed now j
      (st.docs.filter (fun d => decide (d.job_id = j.job_id))))).filter
      (fun d => decide (d.job_id ≠ j.job_id)) = [] := by
    rw [List.filter_eq_nil_iff]
    intro d hd
    obtain ⟨c, _, rfl⟩ := List.mem_map.mp hd
    simp [reconcileChunk_job_id]
  rw [h1, h2, List.append_nil]

theorem reindexJob_docs_filter_eq (m : Nat) (embed : String → List Rat)
    (now : Nat) (j : JobRecord) (st : RagState) :
    (reindexJob m embed now j st).docs.filter
        (fun d => decide (d.job_id = j.job_id)) =
      (chunkJob m j).map (reconcileChunk embed now j
        (st.docs.filter (fun d => decide (d.job_id = j.job_id)))) := by
  simp only [reindexJob]
  rw [List.filter_append]
  have h1 : (st.docs.filter (fun d => decide (d.job_id ≠ j.job_id))).filter
      (fun d => decide (d.job_id = j.job_id)) = [] := by
    rw [List.filter_eq_nil_iff]
    intro d hd
    have hne : d.job_id ≠ j.job_id := of_decide_eq_true (List.mem_filter.mp hd).2
    simp [hne]
  have h2 : ((chunkJob m j).map (reconcileChunk embed now j
      (st.docs.filter (fun d => decide (d.job_id = j.job_id))))).filter
      (fun d => decide (d.job_id = j.job_id)) =
      (chunkJob m j).map (reconcileChunk embed now j
        (st.docs.filter (fun d => decide (d.job_id = j.job_id)))) := by
    rw [List.filter_eq_self]
    intro d hd
    obtain ⟨c, _, rfl⟩ := List.mem_map.mp hd
    simp [reconcileChunk_job_id]
  rw [h1, h2, List.nil_append]

theorem reindexJob_jobs_mem (m : Nat) (embed : String → List Rat) (now : Nat)
    (j : JobRecord) (st : RagState) :
    j.job_id ∈ (reindexJob m embed now j st).jobs := by
  simp only [reindexJob]
  by_cases h : j.job_id ∈ st.jobs
  · simp [h]
  · simp [h]

theorem reconcileChunk_of_find? (embed : String → List Rat) (now : Nat)
    (j : JobRecord) (olds : List RagJobDocument) (c : ChunkTuple)
    (d : RagJobDocument)
    (hfind : olds.find? (fun x => decide (docKey x = chunkKey j.job_id c)) = some d)
    (hcont : d.content = c.content) :
    reconcileChunk embed now j olds c = d := by
  unfold reconcileChunk
  rw [hfind]
  simp [hcont]

/-- C2: the Document Chunker is a pure function of the `JobRecord`, so a
second reindex of the unchanged job is a no-op: it returns the state of
the first reindex unchanged (even at a later clock `now2`), performs zero
row writes, and leaves every document's `updated_at` as it was. -/
theorem reindex_idempotent (m : Nat) (embed : String → List Rat)
    (now now2 : Nat) (j : JobRecord) (st : RagState) (hwf : WFJob j) :
    reindexJob m embed now2 j (reindexJob m embed now j st) =
      reindexJob m embed now j st ∧
    reindexWrites m j (reindexJob m embed now j st) = 0 ∧
    (reindexJob m embed now2 j (reindexJob m embed now j st)).docs.map
        (fun d => d.updated_at) =
      (reindexJob m embed now j st).docs.map (fun d => d.updated_at) := by
  have hfind : ∀ c ∈ chunkJob m j,
      ((chunkJob m j).map (reconcileChunk embed now j
        (st.docs.filter (fun d => decide (d.job_id = j.job_id))))).find?
        (fun x => decide (docKey x = chunkKey j.job_id c)) =
      some (reconcileChunk embed now j
        (st.docs.filter (fun d => decide (d.job_id = j.job_id))) c) := by
    intro c hc
    exact find?_map_key _ docKey (chunkKey j.job_id) (chunkJob m j)
      (fun a _ => reconcileChunk_key embed now j _ a)
      (chunkKey_nodup m j hwf j.job_id) c hc
  have hdocs : (reindexJob m embed now2 j (reindexJob m embed now j st)).docs =
      (reindexJob m embed now j st).docs := by
    show (reindexJob m embed now j st).docs.filter
        (fun d => decide (d.job_id ≠ j.job_id)) ++
      (chunkJob m j).map (reconcileChunk embed now2 j
        ((reindexJob m embed now j st).docs.filter
          (fun d => decide (d.job_id = j.job_id)))) =
      (reindexJob m embed now j st).docs
    rw [reindexJob_docs_filter_ne, reindexJob_docs_filter_eq]
    have hmap : (chunkJob m j).map (reconcileChunk embed now2 j
        ((chunkJob m j).map (reconcileChunk embed now j
          (st.docs.filter (fun d => decide (d.job_id = j.job_id)))))) =
        (chunkJob m j).map (reconcileChunk embed now j
          (st.docs.filter (fun d => decide (d.job_id = j.job_id)))) := by
      apply List.map_congr_left
      intro c hc
      exact reconcileChunk_of_find? embed now2 j _ c _ (hfind c hc)
        (reconcileChunk_content embed now j _ c)
    rw [hmap]
    rfl
  have hjobs : (reindexJob m embed now2 j (reindexJob m embed now j st)).jobs =
      (reindexJob m embed now j st).jobs := by
    show (if j.job_id ∈ (reindexJob m embed now j st).jobs
        then (reindexJob m embed now j st).jobs
        else (reindexJob m embed now j st).jobs ++ [j.job_id]) =
      (reindexJob m embed now j st).jobs
    rw [if_pos (reindexJob_jobs_mem m embed now j st)]
  have hstate : reindexJob m embed now2 j (reindexJob m embed now j st) =
      reindexJob m embed now j st := RagState.ext2 _ _ hjobs hdocs
  refine ⟨hstate, ?_, by rw [hstate]⟩
  show ((chunkJob m j).filter (fun c =>
      match ((reindexJob m embed now j st).docs.filter
          (fun d => decide (d.job_id = j.job_id))).find?
          (fun d => decide (docKey d = chunkKey j.job_id c)) with
      | some d => decide (d.content ≠ c.content)
      | none => true)).length +
    (((reindexJob m embed now j st).docs.filter
        (fun d => decide (d.job_id = j.job_id))).filter (fun d =>
      !((chunkJob m j).any
        (fun c => decide (docKey d = chunkKey j.job_id c))))).length = 0
  rw [reindexJob_docs_filter_eq]
  have hp1 : (chunkJob m j).filter (fun c =>
      match ((chunkJob m j).map (reconcileChunk embed now j
          (st.docs.filter (fun d => decide (d.job_id = j.job_id))))).find?
          (fun d => decide (docKey d = chunkKey j.job_id c)) with
      | some d => decide (d.content ≠ c.content)
      | none => true) = [] := by
    rw [List.filter_eq_nil_iff]
    intro c hc
    rw [hfind c hc]
    simp [reconcileChunk_content]
  have hp2 : (((chunkJob m j).map (reconcileChunk embed now j
      (st.docs.filter (fun d => decide (d.job_id = j.job_id))))).filter (fun d =>
      !((chunkJob m j).any
        (fun c => decide (docKey d = chunkKey j.job_id c))))) = [] := by
    rw [List.filter_eq_nil_iff]
    intro d hd
    obtain ⟨c, hc, rfl⟩ := List.mem_map.mp hd
    have hany : (chunkJob m j).any
        (fun c' => decide (docKey (reconcileChunk embed now j
          (st.docs.filter (fun x => decide (x.job_id = j.job_id))) c) =
            chunkKey j.job_id c')) = true := by
      rw [List.any_eq_true]
      exact ⟨c, hc, by simp [reconcileChunk_key]⟩
    simp [hany]
  rw [hp1, hp2]
  rfl

/-- C2 (witness): reindexing `demoJob` a second time (at a later clock)
leaves the demo store untouched and performs zero writes. -/
theorem reindex_idempotent_witness :
    reindexJob 1 demoEmbed 8 demoJob demoState = demoState ∧
    reindexWrites 1 demoJob demoState = 0 :=
  ⟨(reindex_idempotent 1 demoEmbed 7 8 demoJob ⟨[], []⟩ (by unfold WFJob; decide)).1,
   (reindex_idempotent 1 demoEmbed 7 8 demoJob ⟨[], []⟩ (by unfold WFJob; decide)).2.1⟩

/-- C4: deleting a job cascades to its `rag_job_documents` rows — no row
with the deleted `job_id` survives — and every retrieval against the
resulting state returns only surviving documents, hence never a document
of the deleted job. -/
theorem delete_cascade_orphan_exclusion (st : RagState) (jid : Nat) :
    (∀ d ∈ (deleteJob jid st).docs, d.job_id ≠ jid) ∧
    (∀ q filt k d, d ∈ resultDocs (retrieve q filt k (deleteJob jid st)) →
      d.job_id ≠ jid) := by
  have hdocs : ∀ d ∈ (deleteJob jid st).docs, d.job_id ≠ jid := by
    intro d hd
    simp only [deleteJob] at hd
    exact of_decide_eq_true (List.mem_filter.mp hd).2
  refine ⟨hdocs, ?_⟩
  intro q filt k d hd
  unfold retrieve at hd
  by_cases hq : q.length ≠ EMBEDDING_DIM
  · rw [if_pos hq] at hd
    cases hd
  · rw [if_neg hq] at hd
    simp only [resultDocs] at hd
    have hd1 := (List.take_sublist k _).subset hd
    have hd2 := (List.perm_insertionSort (rankRel q) _).subset hd1
    exact hdocs d (List.mem_filter.mp hd2).1

/-- A stored document of job 1 used in concrete states. -/
def demoDoc1 : RagJobDocument :=
  { job_id := 1, doc_type := "job_full", section_type := none, chunk_index := 0,
    content := "job one", metadata := [],
    embedding_vec := [1],
    created_at := 0, updated_at := 3 }

/-- A stored document of job 2 used in concrete states. -/
def demoDoc2 : RagJobDocument :=
  { job_id := 2, doc_type := "job_full", section_type := none, chunk_index := 0,
    content := "job two", metadata := [],
    embedding_vec := [1],
    created_at := 0, updated_at := 5 }

/-- A two-job store used to exercise deletion and retrieval. -/
def demoDeleteState : RagState := ⟨[1, 2], [demoDoc1, demoDoc2]⟩

set_option maxRecDepth 20000 in
/-- C4 (witness): after deleting job 1 from the two-job store, the
document the retriever returns belongs to job 2, not to job 1. -/
theorem delete_cascade_orphan_exclusion_witness : demoDoc2.job_id ≠ 1 :=
  (delete_cascade_orphan_exclusion demoDeleteState 1).2
    (List.replicate EMBEDDING_DIM 0) (fun _ => true) 5 demoDoc2 (by decide)

theorem rankRel_trans (q : List Rat) (a b c : RagJobDocument)
    (hab : rankRel q a b) (hbc : rankRel q b c) : rankRel q a c := by
  unfold rankRel at *
  rcases hab with h1 | ⟨h1, h2⟩ <;> rcases hbc with g1 | ⟨g1, g2⟩
  · exact Or.inl (lt_trans g1 h1)
  · rw [g1] at h1
    exact Or.inl h1
  · rw [h1]
    exact Or.inl g1
  · refine Or.inr ⟨h1.trans g1, ?_⟩
    rcases h2 with u1 | ⟨u1, u2⟩ <;> rcases g2 with v1 | ⟨v1, v2⟩
    · exact Or.inl (Nat.lt_trans v1 u1)
    · rw [v1] at u1
      exact Or.inl u1
    · rw [u1]
      exact Or.inl v1
    · exact Or.inr ⟨u1.trans v1, Nat.le_trans u2 v2⟩

theorem rankRel_total (q : List Rat) (a b : RagJobDocument) :
    rankRel q a b ∨ rankRel q b a := by
  unfold rankRel
  rcases lt_trichotomy (cosScoreKey q a.embedding_vec)
    (cosScoreKey q b.embedding_vec) with h | h | h
  · exact Or.inr (Or.inl h)
  · rcases Nat.lt_trichotomy a.updated_at b.updated_at with hu | hu | hu
    · exact Or.inr (Or.inr ⟨h.symm, Or.inl hu⟩)
    · rcases Nat.le_total a.job_id b.job_id with hj | hj
      · exact Or.inl (Or.inr ⟨h, Or.inr ⟨hu, hj⟩⟩)
      · exact Or.inr (Or.inr ⟨h.symm, Or.inr ⟨hu.symm, hj⟩⟩)
    · exact Or.inl (Or.inr ⟨h, Or.inl hu⟩)
  · exact Or.inl (Or.inl h)

instance rankRelIsTrans (q : List Rat) : IsTrans RagJobDocument (rankRel q) :=
  ⟨fun a b c => rankRel_trans q a b c⟩

instance rankRelIsTotal (q : List Rat) : IsTotal RagJobDocument (rankRel q) :=
  ⟨fun a b => rankRel_total q a b⟩

/-- C5: the Hybrid Retriever is a pure function of the query and the index
snapshot (so repeated calls with fixed inputs return the identical ordered
list — made explicit by the uniqueness conjunct); it returns at most
`top_k` documents; consecutive results are ordered by the deterministic
rank — higher cosine score first, exact score ties broken by most-recent
`updated_at`, then by lowest `job_id`; and every returned document comes
from the snapshot, passes the filter, and belongs to a live job. -/
theorem hybrid_retriever_order (q : List Rat) (filt : RagJobDocument → Bool)
    (k : Nat) (st : RagState) (res : List RagJobDocument)
    (h : retrieve q filt k st = Except.ok res) :
    res.length ≤ k ∧
    res.Pairwise (rankRel q) ∧
    (∀ d ∈ res, d ∈ st.docs ∧ filt d = true ∧ d.job_id ∈ st.jobs) ∧
    (∀ res2, retrieve q filt k st = Except.ok res2 → res2 = res) := by
  unfold retrieve at h
  by_cases hq : q.length ≠ EMBEDDING_DIM
  · rw [if_pos hq] at h
    cases h
  · rw [if_neg hq] at h
    injection h with h1
    subst h1
    refine ⟨?_, ?_, ?_, ?_⟩
    · rw [List.length_take]
      exact Nat.min_le_left _ _
    · exact List.Pairwise.sublist (List.take_sublist _ _)
        (List.sorted_insertionSort (rankRel q) _)
    · intro d hd
      have hd1 := (List.take_sublist k _).subset hd
      have hd2 := (List.perm_insertionSort (rankRel q) _).subset hd1
      have hm := List.mem_filter.mp hd2
      have hp := (Bool.and_eq_true _ _).mp hm.2
      exact ⟨hm.1, hp.1, of_decide_eq_true hp.2⟩
    · intro res2 h2
      unfold retrieve at h2
      rw [if_neg hq] at h2
      injection h2 with h3
      exact h3.symm

set_option maxRecDepth 20000 in
/-- C5 (witness): the retrieval contract evaluated at a concrete query of
the deployed dimension against the surviving document of the two-job
store. -/
theorem hybrid_retriever_order_witness :
    ([demoDoc2] : List RagJobDocument).length ≤ 5 ∧
    List.Pairwise (rankRel (List.replicate EMBEDDING_DIM 0)) [demoDoc2] :=
  have h := hybrid_retriever_order (List.replicate EMBEDDING_DIM 0)
    (fun _ => true) 5 (deleteJob 1 demoDeleteState) [demoDoc2] (by rfl)
  ⟨h.1, h.2.1⟩

theorem reconcileChunk_embedding (embed : String → List Rat) (now : Nat)
    (j : JobRecord) (olds : List RagJobDocument) (c : ChunkTuple) :
    (reconcileChunk embed now j olds c).embedding_vec = embed c.content ∨
    ∃ d ∈ olds, (reconcileChunk embed now j olds c).embedding_vec =
      d.embedding_vec := by
  unfold reconcileChunk
  cases hfind : olds.find? (fun x => decide (docKey x = chunkKey j.job_id c)) with
  | none => exact Or.inl rfl
  | some d =>
    by_cases hc : d.content = c.content
    · exact Or.inr ⟨d, List.mem_of_find?_eq_some hfind, by simp [hc]⟩
    · exact Or.inl (by simp [hc])

theorem reach_embedding_dim (st : RagState) (h : Reach st) :
    ∀ d ∈ st.docs, d.embedding_vec.length = EMBEDDING_DIM := by
  induction h with
  | init => intro d hd; cases hd
  | reindex m embed now j st2 hwf hemb hst ih =>
    intro d hd
    simp only [reindexJob] at hd
    rcases List.mem_append.mp hd with hd1 | hd2
    · exact ih d (List.mem_filter.mp hd1).1
    · obtain ⟨c, _, rfl⟩ := List.mem_map.mp hd2
      rcases reconcileChunk_embedding embed now j _ c with he | ⟨d0, hd0, he⟩
      · rw [he]; exact hemb c.content
      · rw [he]; exact ih d0 (List.mem_filter.mp hd0).1
  | delete jid st2 hst ih =>
    intro d hd
    simp only [deleteJob] at hd
    exact ih d (List.mem_filter.mp hd).1

theorem signedSq_le_iff (a b : ℝ) : a * |a| ≤ b * |b| ↔ a ≤ b := by
  constructor
  · intro h
    by_contra hab
    push_neg at hab
    rcases le_or_lt 0 b with hb | hb
    · have ha : 0 < a := lt_of_le_of_lt hb hab
      rw [abs_of_nonneg hb, abs_of_pos ha] at h
      nlinarith
    · rcases le_or_lt 0 a with ha | ha
      · rw [abs_of_nonneg ha, abs_of_neg hb] at h
        nlinarith
      · rw [abs_of_neg ha, abs_of_neg hb] at h
        nlinarith
  · intro h
    rcases le_or_lt 0 a with ha | ha
    · have hb : (0 : ℝ) ≤ b := le_trans ha h
      rw [abs_of_nonneg ha, abs_of_nonneg hb]
      nlinarith
    · rcases le_or_lt 0 b with hb | hb
      · rw [abs_of_neg ha, abs_of_nonneg hb]
        nlinarith
      · rw [abs_of_neg ha, abs_of_neg hb]
        nlinarith

theorem cosScoreKey_real (q v : List Rat) (hq : 0 < normSq q)
    (hv : 0 < normSq v) :
    ((cosScoreKey q v : Rat) : ℝ) =
      (((dot q v : Rat) : ℝ) /
          (Real.sqrt ((normSq q : Rat)) * Real.sqrt ((normSq v : Rat)))) *
      |((dot q v : Rat) : ℝ) /
          (Real.sqrt ((normSq q : Rat)) * Real.sqrt ((normSq v : Rat)))| := by
  have hn : normSq q * normSq v ≠ 0 := (mul_pos hq hv).ne'
  have hqR : (0 : ℝ) < ((normSq q : Rat) : ℝ) := by exact_mod_cast hq
  have hvR : (0 : ℝ) < ((normSq v : Rat) : ℝ) := by exact_mod_cast hv
  have hS : (0 : ℝ) < Real.sqrt ((normSq q : Rat)) * Real.sqrt ((normSq v : Rat)) :=
    mul_pos (Real.sqrt_pos.mpr hqR) (Real.sqrt_pos.mpr hvR)
  have hSS : (Real.sqrt ((normSq q : Rat)) * Real.sqrt ((normSq v : Rat))) *
      (Real.sqrt ((normSq q : Rat)) * Real.sqrt ((normSq v : Rat))) =
      ((normSq q : Rat) : ℝ) * ((normSq v : Rat) : ℝ) := by
    have h1 := Real.mul_self_sqrt hqR.le
    have h2 := Real.mul_self_sqrt hvR.le
    nlinarith [h1, h2]
  unfold cosScoreKey
  rw [if_neg hn]
  by_cases hd : 0 ≤ dot q v
  · have hdR : (0 : ℝ) ≤ ((dot q v : Rat) : ℝ) := by exact_mod_cast hd
    rw [if_pos hd, abs_of_nonneg (div_nonneg hdR hS.le)]
    push_cast
    rw [div_mul_div_comm, hSS]
    ring
  · have hdR : ((dot q v : Rat) : ℝ) < 0 := by
      push_neg at hd
      exact_mod_cast hd
    rw [if_neg hd, abs_of_neg (div_neg_of_neg_of_pos hdR hS)]
    push_cast
    rw [mul_neg, div_mul_div_comm, hSS]
    ring

/-- C3: the deployed schema fixes one system-wide embedding dimension
(`vector(1536)`); every stored embedding in every reachable state has that
dimension; a query embedding of any other dimension makes the retriever
fail loudly with the fatal `dimensionMismatch` error instead of returning
an empty result; and the retriever's rational ranking key orders documents
exactly as real cosine similarity `dot/(‖q‖·‖v‖)` does. -/
theorem embedding_dim_cosine_contract :
    EMBEDDING_DIM = 1536 ∧
    (∀ st, Reach st → ∀ d ∈ st.docs, d.embedding_vec.length = EMBEDDING_DIM) ∧
    (∀ q filt k st, q.length ≠ EMBEDDING_DIM →
      retrieve q filt k st = Except.error RetrievalError.dimensionMismatch) ∧
    (∀ q v w : List Rat, 0 < normSq q → 0 < normSq v → 0 < normSq w →
      (cosScoreKey q v ≤ cosScoreKey q w ↔
        ((dot q v : Rat) : ℝ) /
            (Real.sqrt ((normSq q : Rat)) * Real.sqrt ((normSq v : Rat))) ≤
        ((dot q w : Rat) : ℝ) /
            (Real.sqrt ((normSq q : Rat)) * Real.sqrt ((normSq w : Rat))))) := by
  refine ⟨rfl, fun st h => reach_embedding_dim st h, ?_, ?_⟩
  · intro q filt k st hq
    unfold retrieve
    rw [if_pos hq]
  · intro q v w hq hv hw
    rw [← @Rat.cast_le (cosScoreKey q v) (cosScoreKey q w) ℝ _,
      cosScoreKey_real q v hq hv, cosScoreKey_real q w hq hw]
    exact signedSq_le_iff _ _

/-- C3 (witness): a zero-length query embedding is rejected as a fatal
configuration error, and the rational ranking key agrees with real cosine
similarity on concrete one-dimensional vectors. -/
theorem embedding_dim_cosine_contract_witness :
    retrieve [] (fun _ => true) 5 demoDeleteState =
      Except.error RetrievalError.dimensionMismatch ∧
    (cosScoreKey [1] [1] ≤ cosScoreKey [1] [2] ↔
      ((dot [1] [1] : Rat) : ℝ) /
          (Real.sqrt ((normSq [1] : Rat)) * Real.sqrt ((normSq [1] : Rat))) ≤
      ((dot [1] [2] : Rat) : ℝ) /
          (Real.sqrt ((normSq [1] : Rat)) * Real.sqrt ((normSq [2] : Rat)))) :=
  ⟨embedding_dim_cosine_contract.2.2.1 [] (fun _ => true) 5 demoDeleteState
      (by decide),
   embedding_dim_cosine_contract.2.2.2 [1] [1] [2] (by norm_num [normSq, dot])
      (by norm_num [normSq, dot]) (by norm_num [normSq, dot])⟩
